import Mathlib

/-!
Verification development for the clone-finder repository.

Shallow embedding of the core of the repository:
- `src/parsing/ast/goal_ast.py`: the Gallina term model (`Term` and its
  variants), Python `__eq__` (literal structural equality), `free_vars`,
  `subst`, and `alpha_equiv`;
- `src/var_dag.py`: the variable-dependency DAG and its DFS topological
  ordering;
- `src/util.py`: `generalize` and `is_prod_body`;
- `src/main.py`: the redundancy filter over generalized goals;
- `src/alpha.py`: the pairwise clone scan `find_alpha_equiv_goals`.

Modelling conventions:
- Python variables (`Var`) are identified by their name, so variables are
  embedded as `String`.
- Python's in-place, mutating `subst` is embedded as a pure function
  returning the value of the mutated object.  A call that would raise an
  exception in Python (`None.subst`, i.e. an `AttributeError` on a `Match`
  whose optional return type is absent) is embedded as `Option.none`.
  `Fix.subst` returns the Python value `None` (without mutating) when the
  substituted variable is its own bound name or a parameter name; call
  sites that use the returned value observe that `None`, which is tracked
  by `substTopNone` below.
- Python sets (`Set[Var]`) are embedded as `Finset String` for
  `free_vars`, and as deduplicated lists where only membership and
  cardinality are consumed.  Python `set(a) == set(b)` on case clauses is
  embedded extensionally as mutual inclusion under `__eq__`.
-/

namespace CloneFinder

/-- `Pattern` from goal_ast.py: a list of variable names (`names[0]` is the
constructor tag) and an optional alias. -/
structure Pattern where
  names : List String
  alias' : Option String

mutual

/-- The term grammar of goal_ast.py.  `Fun`, `Product` and `Let` are the
three concrete subclasses of `TermAbstraction`; `Let` carries the extra
`var_def` field. -/
inductive Term where
  | Var (name : String)
  | Sort' (name : String) ( annotation : Option String)
  | Fun (var : String) (var_type : Term) (body : Term)
  | Product (var : String) (var_type : Term) (body : Term)
  | Let (var : String) (var_type : Term) (var_def : Term) (body : Term)
  | Cond (guard : Term) (ret_ty : Term) (then_branch : Term) (else_branch : Term) (guard_alias' : Option String)
  | Fix (name : String) (params : Binders) (ret_ty : Term) (body : Term) (struct : Option String)
  | Match (subjects : Subjects) (cases : Cases) (ret_ty : OptTerm)
  | Cast (term : Term) (term_type : Term)
  | App (func : Term) (arg : Term)

/-- The optional return type of a `Match` (Python `Optional[Term]`). -/
inductive OptTerm where
  | none
  | some (t : Term)

/-- The parameter list of a `Fix` (Python `List[Binder]`). -/
inductive Binders where
  | nil
  | cons (b : Binder) (bs : Binders)

/-- `Binder` from goal_ast.py: a list of names and their shared type. -/
inductive Binder where
  | mk (names : List String) (ty : Term)

/-- The subject list of a `Match` (Python `List[MatchSubject]`). -/
inductive Subjects where
  | nil
  | cons (s : MatchSubject) (ss : Subjects)

/-- `MatchSubject` from goal_ast.py. -/
inductive MatchSubject where
  | mk (term : Term) (term_alias' : Option String) (pattern : Option Pattern)

/-- The case-clause list of a `Match` (Python `List[CaseClause]`). -/
inductive Cases where
  | nil
  | cons (c : CaseClause) (cs : Cases)

/-- `CaseClause` from goal_ast.py: patterns and a body. -/
inductive CaseClause where
  | mk (patterns : List Pattern) (body : Term)

end

/-- `Pattern.get_bound_vars`: `set(names[1:] + [alias])`.  The Python set is
modelled as a deduplicated list. -/
def Pattern.get_bound_vars (p : Pattern) : List String :=
  (p.names.tail ++ (match p.alias' with | Option.none => [] | Option.some a => [a])).dedup

/-- `MatchSubject.get_bound_vars`: the term alias together with the
pattern's bound variables (a Python set, modelled as a deduplicated list). -/
def MatchSubject.get_bound_vars : MatchSubject → List String
  | .mk _ ta p =>
    ((match ta with | Option.none => [] | Option.some a => [a]) ++
     (match p with | Option.none => [] | Option.some pat => pat.get_bound_vars)).dedup

/-- `Pattern.__eq__`: equal names list and equal alias. -/
def beqPat (p p' : Pattern) : Bool :=
  p.names == p'.names && p.alias' == p'.alias'

/-- Elementwise `__eq__` of Python pattern lists. -/
def beqPatterns : List Pattern → List Pattern → Bool
  | [], [] => true
  | p :: ps, p' :: ps' => beqPat p p' && beqPatterns ps ps'
  | _, _ => false

mutual

/-- Python `__eq__` on terms (the literal structural equality used by the
source; never performs alpha-renaming).  `Fun`/`Product`/`Let` inherit
`TermAbstraction.__eq__`, which compares only `var_type` and `body` (and
`var_def` for `Let`) — the bound variable's name is ignored. -/
def beqT : Term → Term → Bool
  | .Var n, .Var n' => n == n'
  | .Sort' n a, .Sort' n' a' => n == n' && a == a'
  | .Fun _ ty b, .Fun _ ty' b' => beqT ty ty' && beqT b b'
  | .Product _ ty b, .Product _ ty' b' => beqT ty ty' && beqT b b'
  | .Let _ ty d b, .Let _ ty' d' b' => (beqT ty ty' && beqT b b') && beqT d d'
  | .Cond g rt th el ga, .Cond g' rt' th' el' ga' =>
      ga == ga' && (beqT g g' && beqT rt rt' && beqT th th' && beqT el el')
  | .Fix f ps rt b st, .Fix f' ps' rt' b' st' =>
      st == st' && (f == f' && beqBinders ps ps' && beqT rt rt' && beqT b b')
  | .Match subs cs rt, .Match subs' cs' rt' =>
      beqSubjects subs subs' && (casesSubset cs cs' && casesSubset cs' cs) && beqOptT rt rt'
  | .Cast t ty, .Cast t' ty' => beqT t t' && beqT ty ty'
  | .App f a, .App f' a' => beqT f f' && beqT a a'
  | _, _ => false
termination_by t u => sizeOf t + sizeOf u

/-- Python `==` on the optional return type of a `Match` (`None == None` is
`True`, `None` never equals a term). -/
def beqOptT : OptTerm → OptTerm → Bool
  | .none, .none => true
  | .some t, .some t' => beqT t t'
  | _, _ => false
termination_by t u => sizeOf t + sizeOf u

/-- Elementwise `__eq__` of `Fix` parameter lists. -/
def beqBinders : Binders → Binders → Bool
  | .nil, .nil => true
  | .cons b bs, .cons b' bs' => beqB b b' && beqBinders bs bs'
  | _, _ => false
termination_by t u => sizeOf t + sizeOf u

/-- `Binder.__eq__`: equal names and equal type. -/
def beqB : Binder → Binder → Bool
  | .mk ns ty, .mk ns' ty' => ns == ns' && beqT ty ty'
termination_by t u => sizeOf t + sizeOf u

/-- Elementwise `__eq__` of `Match` subject lists. -/
def beqSubjects : Subjects → Subjects → Bool
  | .nil, .nil => true
  | .cons s ss, .cons s' ss' => beqMS s s' && beqSubjects ss ss'
  | _, _ => false
termination_by t u => sizeOf t + sizeOf u

/-- `MatchSubject.__eq__`: alias presence and value, pattern presence and
value, then the subject terms. -/
def beqMS : MatchSubject → MatchSubject → Bool
  | .mk t ta p, .mk t' ta' p' =>
      (ta == ta') &&
      (match p, p' with
       | Option.none, Option.none => true
       | Option.some q, Option.some q' => beqPat q q'
       | _, _ => false) &&
      beqT t t'
termination_by t u => sizeOf t + sizeOf u

/-- Every clause of the first list `__eq__`-occurs in the second. -/
def casesSubset : Cases → Cases → Bool
  | .nil, _ => true
  | .cons c cs, b => casesElem c b && casesSubset cs b
termination_by t u => sizeOf t + sizeOf u

/-- Python set membership of a case clause, via `__eq__`. -/
def casesElem (c : CaseClause) : Cases → Bool
  | .nil => false
  | .cons c' cs' => beqCC c c' || casesElem c cs'
termination_by u => sizeOf c + sizeOf u

/-- `CaseClause.__eq__`: equal pattern lists and equal body. -/
def beqCC : CaseClause → CaseClause → Bool
  | .mk ps b, .mk ps' b' => beqPatterns ps ps' && beqT b b'
termination_by t u => sizeOf t + sizeOf u

end

/-- `Match.__eq__` compares case-clause lists as Python sets:
`set(self.cases) == set(other.cases)`, modelled extensionally as mutual
inclusion under `CaseClause.__eq__`.  (Python's hashing of the set
members is not modelled.) -/
def pySetEqCases (a b : Cases) : Bool :=
  casesSubset a b && casesSubset b a

/-- Concatenated names of all binders of a `Fix` (in order, duplicates kept). -/
def bindersAllNames : Binders → List String
  | .nil => []
  | .cons (Binder.mk ns _) bs => ns ++ bindersAllNames bs

/-- Number of binders of a `Fix` (Python `len(self.__params)`). -/
def bindersLen : Binders → Nat
  | .nil => 0
  | .cons _ bs => bindersLen bs + 1

/-- Number of subjects of a `Match`. -/
def subjectsLen : Subjects → Nat
  | .nil => 0
  | .cons _ ss => subjectsLen ss + 1

/-- Number of case clauses of a `Match`. -/
def casesLen : Cases → Nat
  | .nil => 0
  | .cons _ cs => casesLen cs + 1

/-- `Pattern.free_vars`: the constructor tag `names[0]` when the list is
nonempty and the tag is not the wildcard. -/
def patternFvs (p : Pattern) : Finset String :=
  match p.names with
  | [] => ∅
  | n :: _ => if n = "_" then ∅ else {n}

/-- Free variables contributed by a subject's optional pattern. -/
def patOptFvs : Option Pattern → Finset String
  | Option.none => ∅
  | Option.some p => patternFvs p

/-- `fvs.discard(guard_alias)` of `Cond.free_vars` when the alias is present. -/
def eraseOptName (s : Finset String) : Option String → Finset String
  | Option.none => s
  | Option.some a => s.erase a

/-- Non-wildcard variables jointly bound by a case clause's patterns
(the generator `bv for pattern in patterns for bv in pattern.get_bound_vars()
if bv != '_'`). -/
def ccBoundNonWild (ps : List Pattern) : List String :=
  (ps.map Pattern.get_bound_vars).flatten.filter (fun x => x != "_")

mutual

/-- `Term.free_vars` of goal_ast.py, per variant.  Note the source's
behaviour, reproduced faithfully: `Cond.free_vars` does not include the
guard's free variables; `Match.free_vars` and `Fix.free_vars` do not
remove any bound variables from the return type's free variables; a
`TermAbstraction` removes its bound variable only from the body's free
variables, not from the declared type's. -/
def freeVars : Term → Finset String
  | .Var n => {n}
  | .Sort' _ _ => ∅
  | .Fun x ty b => ((freeVars b).erase x) ∪ freeVars ty
  | .Product x ty b => ((freeVars b).erase x) ∪ freeVars ty
  | .Let x ty d b => (((freeVars b).erase x) ∪ freeVars ty) ∪ freeVars d
  | .Cond _ rt th el ga =>
      (eraseOptName (freeVars rt) ga ∪ freeVars th) ∪ freeVars el
  | .Fix f ps rt b _ =>
      (freeVars rt ∪ (bindersFvs ps \ (bindersAllNames ps).toFinset)) ∪
        (((freeVars b).erase f) \ (bindersAllNames ps).toFinset)
  | .Match subs cs rt => (subjectsFvs subs ∪ optFvs rt) ∪ casesFvs cs
  | .Cast t ty => freeVars t ∪ freeVars ty
  | .App f a => freeVars f ∪ freeVars a

/-- Free variables of the optional return type of a `Match` (skipped when
absent). -/
def optFvs : OptTerm → Finset String
  | .none => ∅
  | .some t => freeVars t

/-- Union of `Binder.free_vars` over a `Fix`'s parameters (each binder's
type's free variables minus that binder's own names). -/
def bindersFvs : Binders → Finset String
  | .nil => ∅
  | .cons (Binder.mk ns ty) bs => ((freeVars ty) \ ns.toFinset) ∪ bindersFvs bs

/-- Union of `MatchSubject.free_vars` (subject term plus pattern tag). -/
def subjectsFvs : Subjects → Finset String
  | .nil => ∅
  | .cons (MatchSubject.mk t _ p) ss => (freeVars t ∪ patOptFvs p) ∪ subjectsFvs ss

/-- Union of `CaseClause.free_vars` (body minus the non-wildcard variables
bound by the clause's patterns). -/
def casesFvs : Cases → Finset String
  | .nil => ∅
  | .cons (CaseClause.mk ps b) cs =>
      ((freeVars b) \ (ccBoundNonWild ps).toFinset) ∪ casesFvs cs

end

/-- All bound variables collected by `Match.subst`'s first loop
(`bvs.update(subject.get_bound_vars())`, no wildcard filtering). -/
def subjectsBoundAll : Subjects → List String
  | .nil => []
  | .cons s ss => s.get_bound_vars ++ subjectsBoundAll ss

/-- Bound variables of one case clause as collected by `Match.subst`
(`bvs.update(p.get_bound_vars())`, no wildcard filtering). -/
def ccBoundAll (ps : List Pattern) : List String :=
  (ps.map Pattern.get_bound_vars).flatten

mutual

/-- `Term.subst(var, replacement)` of goal_ast.py, embedded as the value of
the mutated object.  `Option.none` models a raised exception: the only
raise is `Match.subst` calling `self.__ret_ty.subst(...)` when the
optional return type is absent (`None.subst` is an `AttributeError`).
`Fix.subst` returns early (without touching anything) when the substituted
variable is the fix's own name or one of its parameter names; `Cond.subst`
never descends into the guard. -/
def substE : Term → String → String → Option Term
  | .Var n, v, r => Option.some (if n == v then Term.Var r else Term.Var n)
  | .Sort' n a, _, _ => Option.some (Term.Sort' n a)
  | .Fun x ty b, v, r => do
      let ty' ← substE ty v r
      if v == x then
        Option.some (Term.Fun x ty' b)
      else
        let b' ← substE b v r
        Option.some (Term.Fun x ty' b')
  | .Product x ty b, v, r => do
      let ty' ← substE ty v r
      if v == x then
        Option.some (Term.Product x ty' b)
      else
        let b' ← substE b v r
        Option.some (Term.Product x ty' b')
  | .Let x ty d b, v, r => do
      let ty' ← substE ty v r
      let b' ← if v == x then Option.some b else substE b v r
      let d' ← substE d v r
      Option.some (Term.Let x ty' d' b')
  | .Cond g rt th el ga, v, r => do
      let th' ← substE th v r
      let el' ← substE el v r
      let rt' ←
        match ga with
        | Option.some a => if a == v then Option.some rt else substE rt v r
        | Option.none => substE rt v r
      Option.some (Term.Cond g rt' th' el' ga)
  | .Fix f ps rt b st, v, r =>
      if f == v then Option.some (Term.Fix f ps rt b st)
      else if (bindersAllNames ps).contains v then Option.some (Term.Fix f ps rt b st)
      else do
        let ps' ← substBinders ps v r
        let rt' ← substE rt v r
        let b' ← substE b v r
        Option.some (Term.Fix f ps' rt' b' st)
  | .Match subs cs rt, v, r => do
      let subs' ← substSubjects subs v r
      let rt' ←
        if (subjectsBoundAll subs).contains v then Option.some rt
        else
          match rt with
          | OptTerm.none => Option.none
          | OptTerm.some t => (substE t v r).map OptTerm.some
      let cs' ← substCases cs v r
      Option.some (Term.Match subs' cs' rt')
  | .Cast t ty, v, r => do
      let t' ← substE t v r
      let ty' ← substE ty v r
      Option.some (Term.Cast t' ty')
  | .App f a, v, r => do
      let f' ← substE f v r
      let a' ← substE a v r
      Option.some (Term.App f' a')

/-- Substitution in the types of a `Fix`'s parameter binders. -/
def substBinders : Binders → String → String → Option Binders
  | .nil, _, _ => Option.some Binders.nil
  | .cons (Binder.mk ns ty) bs, v, r => do
      let ty' ← substE ty v r
      let bs' ← substBinders bs v r
      Option.some (Binders.cons (Binder.mk ns ty') bs')

/-- Substitution in each match subject's term. -/
def substSubjects : Subjects → String → String → Option Subjects
  | .nil, _, _ => Option.some Subjects.nil
  | .cons (MatchSubject.mk t ta p) ss, v, r => do
      let t' ← substE t v r
      let ss' ← substSubjects ss v r
      Option.some (Subjects.cons (MatchSubject.mk t' ta p) ss')

/-- Substitution in each case clause's body, skipped when the variable is
bound by the clause's patterns. -/
def substCases : Cases → String → String → Option Cases
  | .nil, _, _ => Option.some Cases.nil
  | .cons (CaseClause.mk ps b) cs, v, r => do
      let b' ← if (ccBoundAll ps).contains v then Option.some b else substE b v r
      let cs' ← substCases cs v r
      Option.some (Cases.cons (CaseClause.mk ps b') cs')

end

/-- True exactly when the Python call `t.subst(var, replacement)` evaluates
to the value `None`: the two early `return` statements of `Fix.subst`
(the variable is the fix's own name or one of its parameter names). -/
def substTopNone : Term → String → Bool
  | .Fix f ps _ _ _, v => f == v || (bindersAllNames ps).contains v
  | _, _ => false

/-- The Python value of the expression `t.subst(var, replacement)` at call
sites that use the result (`deepcopy(...).subst(...)` in
`TermAbstraction.alpha_equiv` and `Cond.alpha_equiv`): the outer
`Option.none` models a raised exception, the inner level models the value
(`Option.none` = Python `None`, from `Fix.subst`'s early returns). -/
def substVal (t : Term) (v r : String) : Option (Option Term) :=
  match substE t v r with
  | Option.none => Option.none
  | Option.some t' =>
      Option.some (if substTopNone t v then Option.none else Option.some t')

/-- Python `==` between two values each of which is a term or `None`. -/
def pyOptEqT : Option Term → Option Term → Bool
  | Option.none, Option.none => true
  | Option.some a, Option.some b => beqT a b
  | _, _ => false

/-- The synthesized placeholder `'SynthesizedVar#%d' % i`. -/
def synthName (i : Nat) : String := "SynthesizedVar#" ++ toString i

/-- Lexicographic comparison of characters by code point (as Python's
string comparison). -/
def charLtB (a b : Char) : Bool := a.toNat < b.toNat

/-- Lexicographic comparison of character lists by code point. -/
def charsLt : List Char → List Char → Bool
  | [], [] => false
  | [], _ :: _ => true
  | _ :: _, [] => false
  | a :: as, b :: bs =>
      if charLtB a b then true else if charLtB b a then false else charsLt as bs

/-- Python's `<` on strings (lexicographic by code point). -/
def strLt (a b : String) : Bool := charsLt a.data b.data

/-- Insertion into an ascending list, for `sortStr`. -/
def insertSorted (x : String) : List String → List String
  | [] => [x]
  | y :: ys => if strLt x y then x :: y :: ys else y :: insertSorted x ys

/-- Python's `list.sort(key=lambda x: x.get_name())` on a list of variable
names: ascending lexicographic sort (equal names are interchangeable, so
stability is immaterial). -/
def sortStr : List String → List String
  | [] => []
  | x :: xs => insertSorted x (sortStr xs)

/-- The in-place loop `for i in range(n): body.subst(bvs[i], synth(i))`:
sequential substitutions on one side's (deep-copied) substructure,
propagating a raised exception. -/
def substSeq : Term → List (String × String) → Option Term
  | t, [] => Option.some t
  | t, p :: rest => do
      let t' ← substE t p.1 p.2
      substSeq t' rest

/-- The same loop applied to a `Match`'s deep-copied optional return type:
if the return type is absent and at least one substitution runs, Python
raises (`None.subst`). -/
def substSeqOpt : OptTerm → List (String × String) → Option OptTerm
  | o, [] => Option.some o
  | OptTerm.none, _ :: _ => Option.none
  | OptTerm.some t, p :: rest => do
      let t' ← substE t p.1 p.2
      substSeqOpt (OptTerm.some t') rest

/-- Pairs each sorted bound variable with its indexed placeholder. -/
def substPairs (bvs : List String) : List (String × String) :=
  bvs.zip ((List.range bvs.length).map synthName)

/-- `CaseClause.alpha_equiv`: equal pattern count; collect both sides'
non-wildcard pattern-bound variables, require equal counts, sort each by
name, substitute indexed placeholders into both (deep-copied) bodies, and
compare the results with literal `__eq__`.  `Option.none` models a raised
exception from the substitutions. -/
def alphaCC : CaseClause → CaseClause → Option Bool
  | .mk ps b, .mk ps' b' =>
    if ps.length != ps'.length then Option.some false
    else
      let bvs := ccBoundNonWild ps
      let bvs' := ccBoundNonWild ps'
      if bvs.length != bvs'.length then Option.some false
      else do
        let tb ← substSeq b (substPairs (sortStr bvs))
        let ob ← substSeq b' (substPairs (sortStr bvs'))
        Option.some (beqT tb ob)

/-- Inner loop of `Match.alpha_equiv`'s case comparison: checks `c1`
against every clause of the other side, returning `False` at the first
non-equivalent pair. -/
def alphaCasesInner (c1 : CaseClause) : Cases → Option Bool
  | Cases.nil => Option.some true
  | Cases.cons c2 rest => do
      let r ← alphaCC c1 c2
      if r then alphaCasesInner c1 rest else Option.some false

/-- Outer loop of `Match.alpha_equiv`'s case comparison: every pair of
clauses (all pairs, not positional) must be alpha-equivalent. -/
def alphaCasesOuter : Cases → Cases → Option Bool
  | Cases.nil, _ => Option.some true
  | Cases.cons c1 rest, cs2 => do
      let r ← alphaCasesInner c1 cs2
      if r then alphaCasesOuter rest cs2 else Option.some false

/-- The non-wildcard subject-bound variables collected by
`Match.alpha_equiv` (per-subject sets, concatenated, wildcards dropped). -/
def subjectsBvsNonWild (ss : Subjects) : List String :=
  (subjectsBoundAll ss).filter (fun x => x != "_")

/-- `Term.alpha_equiv` of goal_ast.py.  `Option.none` models a raised
exception (possible through the substitutions performed on deep copies).
Mismatched variants are never equivalent.  `Fun`/`Product`/`Let` share
`TermAbstraction.alpha_equiv`: type alpha-compared first; if the two bound
variables are the very same name the bodies are compared recursively with
`alpha_equiv`, otherwise a single placeholder is substituted for each
side's bound variable and the resulting bodies are compared with literal
`__eq__` (the Python values of `deepcopy(body).subst(...)`, which can be
`None`).  `Cond` renames the guard aliases in the return types, then
alpha-compares guard and branches (the guard's free occurrences are
compared, unlike `free_vars`/`subst`).  `Fix` alpha-compares return types,
then renames name-sorted bound variables in both bodies and compares
literally.  `Match` compares all pairs of case clauses, then renames
name-sorted subject-bound variables in both return types and compares
literally; subject terms are never compared. -/
def alphaEquivT : Term → Term → Option Bool
  | .Var n, other => Option.some (beqT (Term.Var n) other)
  | .Sort' n a, other => Option.some (beqT (Term.Sort' n a) other)
  | .Fun x ty b, .Fun y ty' b' => do
      let tb ← alphaEquivT ty ty'
      if !tb then Option.some false
      else if x == y then alphaEquivT b b'
      else do
        let v1 ← substVal b x (synthName 0)
        let v2 ← substVal b' y (synthName 0)
        Option.some (pyOptEqT v1 v2)
  | .Fun _ _ _, _ => Option.some false
  | .Product x ty b, .Product y ty' b' => do
      let tb ← alphaEquivT ty ty'
      if !tb then Option.some false
      else if x == y then alphaEquivT b b'
      else do
        let v1 ← substVal b x (synthName 0)
        let v2 ← substVal b' y (synthName 0)
        Option.some (pyOptEqT v1 v2)
  | .Product _ _ _, _ => Option.some false
  | .Let x ty d b, .Let y ty' d' b' => do
      let s ← do
        let tb ← alphaEquivT ty ty'
        if !tb then Option.some false
        else if x == y then alphaEquivT b b'
        else do
          let v1 ← substVal b x (synthName 0)
          let v2 ← substVal b' y (synthName 0)
          Option.some (pyOptEqT v1 v2)
      if !s then Option.some false else alphaEquivT d d'
  | .Let _ _ _ _, _ => Option.some false
  | .Cond g rt th el ga, .Cond g' rt' th' el' ga' => do
      let aliasOk ←
        match ga, ga' with
        | Option.none, Option.none => Option.some true
        | Option.some a, Option.some a' => do
            let v1 ← substVal rt a (synthName 0)
            let v2 ← substVal rt' a' (synthName 0)
            Option.some (pyOptEqT v1 v2)
        | _, _ => Option.some false
      if !aliasOk then Option.some false
      else do
        let r1 ← alphaEquivT g g'
        if !r1 then Option.some false
        else do
          let r2 ← alphaEquivT th th'
          if !r2 then Option.some false else alphaEquivT el el'
  | .Cond _ _ _ _ _, _ => Option.some false
  | .Fix f ps rt b _, .Fix f' ps' rt' b' _ =>
      if bindersLen ps != bindersLen ps' then Option.some false
      else do
        let r ← alphaEquivT rt rt'
        if !r then Option.some false
        else
          let bvs := f :: (bindersAllNames ps).filter (fun x => x != "_")
          let bvs' := f' :: (bindersAllNames ps').filter (fun x => x != "_")
          if bvs.length != bvs'.length then Option.some false
          else do
            let tb ← substSeq b (substPairs (sortStr bvs))
            let ob ← substSeq b' (substPairs (sortStr bvs'))
            Option.some (beqT tb ob)
  | .Fix _ _ _ _ _, _ => Option.some false
  | .Match subs cs rt, .Match subs' cs' rt' =>
      if casesLen cs != casesLen cs' then Option.some false
      else if subjectsLen subs != subjectsLen subs' then Option.some false
      else do
        let cok ← alphaCasesOuter cs cs'
        if !cok then Option.some false
        else
          let bvs := subjectsBvsNonWild subs
          let bvs' := subjectsBvsNonWild subs'
          if bvs.length != bvs'.length then Option.some false
          else do
            let o1 ← substSeqOpt rt (substPairs (sortStr bvs))
            let o2 ← substSeqOpt rt' (substPairs (sortStr bvs'))
            Option.some (beqOptT o1 o2)
  | .Match _ _ _, _ => Option.some false
  | .Cast t ty, .Cast t' ty' => do
      let r ← alphaEquivT t t'
      if !r then Option.some false else alphaEquivT ty ty'
  | .Cast _ _, _ => Option.some false
  | .App f a, .App f' a' => do
      let r ← alphaEquivT f f'
      if !r then Option.some false else alphaEquivT a a'
  | .App _ _, _ => Option.some false

/-- The adjacency structure of `VarDAG` (var_dag.py): a Python dict from
node to successor list, embedded as an insertion-ordered association
list. -/
abbrev Adj := List (String × List String)

/-- Python `self.__adj[n]` lookup (`Option.none` models a `KeyError`). -/
def adjFind : Adj → String → Option (List String)
  | [], _ => Option.none
  | (k, vs) :: rest, n => if k == n then Option.some vs else adjFind rest n

/-- `VarDAG.add_node`: insert the node with an empty successor list if
absent. -/
def add_node (adj : Adj) (v : String) : Adj :=
  if (adjFind adj v).isSome then adj else adj ++ [(v, [])]

/-- Append `d` to the successor list of `s`. -/
def adjAppendEdge : Adj → String → String → Adj
  | [], _, _ => []
  | (k, vs) :: rest, s, d =>
      if k == s then (k, vs ++ [d]) :: rest else (k, vs) :: adjAppendEdge rest s d

/-- `VarDAG.add_edge`: auto-insert both endpoints, then append the edge. -/
def add_edge (adj : Adj) (s d : String) : Adj :=
  adjAppendEdge (add_node (add_node adj s) d) s d

/-- One `VarDAG` mutation. -/
inductive DagOp where
  | addNode (v : String)
  | addEdge (s d : String)

/-- A `VarDAG` built by a sequence of `add_node`/`add_edge` calls. -/
def buildDag (ops : List DagOp) : Adj :=
  ops.foldl
    (fun adj op =>
      match op with
      | DagOp.addNode v => add_node adj v
      | DagOp.addEdge s d => add_edge adj s d)
    []

mutual

/-- `VarDAG.__dfs_visit` (var_dag.py): mark the node visited and on the
current path, recurse into unvisited successors, raise `ValueError` on a
back edge into the current path, then insert the node at the front of the
result list.  The state is `(visited, res)`; `locals` is the current
recursion path (Python's `local_visited`).  `Option.none` models a raised
`ValueError` (or fuel exhaustion; the fuel argument only bounds the number
of steps of this terminating traversal, and every theorem below is
conditioned on successful completion). -/
def dfsVisit (adj : Adj) : Nat → String → List String → List String × List String → Option (List String × List String)
  | 0, _, _, _ => Option.none
  | fuel + 1, node, locals, (visited, res) =>
      match adjFind adj node with
      | Option.none => Option.none
      | Option.some succs =>
          match dfsSuccs adj fuel succs (node :: locals) (node :: visited, res) with
          | Option.none => Option.none
          | Option.some (v', r') => Option.some (v', node :: r')

/-- The successor loop of `__dfs_visit`: skip visited successors unless
they lie on the current path (then raise), otherwise recurse. -/
def dfsSuccs (adj : Adj) : Nat → List String → List String → List String × List String → Option (List String × List String)
  | 0, _, _, _ => Option.none
  | _ + 1, [], _, st => Option.some st
  | fuel + 1, v :: vs, locals, (visited, res) =>
      if visited.contains v then
        if locals.contains v then Option.none
        else dfsSuccs adj fuel vs locals (visited, res)
      else
        match dfsVisit adj fuel v locals (visited, res) with
        | Option.none => Option.none
        | Option.some st => dfsSuccs adj fuel vs locals st

end

/-- The loop of `get_topological_ordering` over the dict's keys in
insertion order, with a fresh `local_visited` per root. -/
def topoGo (adj : Adj) (fuel : Nat) : List String → List String × List String → Option (List String)
  | [], st => Option.some st.2
  | k :: ks, (visited, res) =>
      if visited.contains k then topoGo adj fuel ks (visited, res)
      else
        match dfsVisit adj fuel k [] (visited, res) with
        | Option.none => Option.none
        | Option.some st => topoGo adj fuel ks st

/-- Total number of nodes and edges, an ample fuel bound for the DFS. -/
def adjWeight (adj : Adj) : Nat :=
  adj.foldl (fun n p => n + p.2.length + 2) 0

/-- `VarDAG.get_topological_ordering`: clear the state, DFS from every key
in insertion order, return the accumulated front-insertion list.
`Option.none` models the `ValueError` raised on a cyclic input. -/
def get_topological_ordering (adj : Adj) : Option (List String) :=
  topoGo adj (adjWeight adj + 1) (adj.map Prod.fst) ([], [])

/-- Python whitespace test for `str.strip` (the characters occurring in
goal texts). -/
def isWsp (c : Char) : Bool := c == ' ' || c == '\t' || c == '\n' || c == '\r'

/-- Python `str.strip()`. -/
def pyStrip (s : String) : String :=
  String.mk (((s.data.dropWhile isWsp).reverse.dropWhile isWsp).reverse)

/-- Worker for `str.split(sep)`. -/
def splitCharsAux (sep : Char) : List Char → List Char → List (List Char)
  | [], acc => [acc.reverse]
  | c :: cs, acc =>
      if c == sep then acc.reverse :: splitCharsAux sep cs []
      else splitCharsAux sep cs (c :: acc)

/-- Python `str.split(sep)` for a single-character separator. -/
def pySplit (s : String) (sep : Char) : List String :=
  (splitCharsAux sep s.data []).map String.mk

/-- Split a context entry at its first colon (`d.index(':')` plus the two
slices); `Option.none` models the `ValueError` when no colon occurs. -/
def splitAtColon : List Char → Option (List Char × List Char)
  | [] => Option.none
  | c :: cs =>
      if c == ':' then Option.some ([], cs)
      else (splitAtColon cs).map (fun p => (c :: p.1, p.2))

/-- Python dict assignment on an insertion-ordered association list:
overwrite in place if the key is present, else append. -/
def ctxInsert {α : Type} : List (String × α) → String → α → List (String × α)
  | [], k, v => [(k, v)]
  | (k', v') :: rest, k, v =>
      if k' == k then (k, v) :: rest else (k', v') :: ctxInsert rest k v

/-- Python dict lookup. -/
def lookupCtx {α : Type} : List (String × α) → String → Option α
  | [], _ => Option.none
  | (k', v') :: rest, k => if k' == k then Option.some v' else lookupCtx rest k

/-- The `local_context` built by `generalize` (util.py): each entry
`name{,name}* : type` contributes one dict entry per comma-separated
stripped name, mapping it to the stripped type text and the type's free
variables.  The goal parser composed with `free_vars` is abstracted as the
parameter `fvOf` (the concrete grammar/parser is an external artifact not
part of the modelled core).  `Option.none` models the `ValueError` of
`d.index(':')` on an entry without a colon. -/
def ctxOf (fvOf : String → List String) (ctxLines : List String) :
    Option (List (String × String × List String)) :=
  ctxLines.foldlM
    (fun ctx d => do
      let p ← splitAtColon d.data
      let body := pyStrip (String.mk p.2)
      Option.some ((pySplit (String.mk p.1) ',').foldl
        (fun ctx nm => ctxInsert ctx (pyStrip nm) (body, fvOf body)) ctx))
    []

/-- The free variables of the original goal that are locally defined
(a Python set, modelled as a deduplicated list in first-occurrence
order). -/
def locallyDefinedFvs (fvOf : String → List String)
    (ctx : List (String × String × List String)) (goal : String) : List String :=
  ((fvOf goal).filter (fun v => (lookupCtx ctx v).isSome)).dedup

/-- `make_dag` (util.py): one node per locally-defined free variable of the
goal, one edge to every locally-defined free variable of its type. -/
def make_dag (ldf : List String)
    (ctx : List (String × String × List String)) : Adj :=
  ldf.foldl
    (fun adj s =>
      let adj := add_node adj s
      match lookupCtx ctx s with
      | Option.none => adj
      | Option.some pr =>
          pr.2.foldl
            (fun adj d => if (lookupCtx ctx d).isSome then add_edge adj s d else adj)
            adj)
    []

/-- `generalize` (util.py): build the local context, collect the goal's
locally-defined free variables, build the dependency DAG, take the DFS
topological ordering, reverse it, and wrap one textual quantifier
`forall (name : type), (...)` around the goal per iterated variable (the
first iterated variable becomes the innermost quantifier).  `Option.none`
models a raised exception (context entry without a colon, cyclic DAG, or
a dict `KeyError`). -/
def generalizeM (fvOf : String → List String) (ctxLines : List String)
    (goal : String) : Option String := do
  let ctx ← ctxOf fvOf ctxLines
  let ldf := locallyDefinedFvs fvOf ctx goal
  let dag := make_dag ldf ctx
  let topo ← get_topological_ordering dag
  (topo.reverse).foldlM
    (fun g fv =>
      (lookupCtx ctx fv).map
        (fun pr => "forall (" ++ fv ++ " : " ++ pr.1 ++ "), (" ++ g ++ ")"))
    goal

/-- `isinstance(a, Product)`. -/
def isProductB : Term → Bool
  | .Product _ _ _ => true
  | _ => false

/-- `is_prod_body` (util.py): repeatedly unwrap `p` through nested
`Product` layers; return `True` as soon as an unwrapped body is literally
(`__eq__`) equal to `t`. -/
def is_prod_body : Term → Term → Bool
  | .Product _ _ b, t => beqT b t || is_prod_body b t
  | _, _ => false

/-- The `redundant_goals` set built in main.py: for every ordered pair of
candidates, when the first's AST is a `Product` and some unwrapped body of
it equals the second's AST, the second's generalized text is marked
redundant.  Candidates are represented by their generalized texts; the
cached AST map `goal_ast_map` is the parameter `m`. -/
def redundantGoals (m : String → Term) (l : List String) : List String :=
  l.foldl
    (fun acc s =>
      l.foldl
        (fun acc2 t =>
          if isProductB (m s) && is_prod_body (m s) (m t) then t :: acc2 else acc2)
        acc)
    []

/-- The filter `[g for g in goals_list if g[4] not in redundant_goals]`. -/
def dropRedundantGoals (m : String → Term) (l : List String) : List String :=
  l.filter (fun t => !((redundantGoals m l).contains t))

/-- One entry of `goals_list` in main.py:
`(goal, theorem name, file, proof, generalized text)` (the cached local
context is irrelevant to the scan and omitted). -/
structure GoalEntry where
  goal : String
  thm : String
  file : String
  proof : List String
  gen : String

/-- Index-tagging of a list starting at `k` (the loop indices of
`find_alpha_equiv_goals`). -/
def enumFrom {α : Type} : Nat → List α → List (Nat × α)
  | _, [] => []
  | k, x :: xs => (k, x) :: enumFrom (k + 1) xs

/-- The inner loop of `find_alpha_equiv_goals` (alpha.py) for the fixed
outer candidate `e` at index `i`: skip pairs with the same theorem name,
emit the pair when the cached ASTs are alpha-equivalent.  The Boolean
result flags a raised exception (from `alpha_equiv`), which aborts the
whole scan; pairs emitted before the abort stand. -/
def scanInner (m : String → Term) (e : GoalEntry) (i : Nat) :
    List (Nat × GoalEntry) → List (Nat × Nat) × Bool
  | [] => ([], false)
  | (j, f) :: rest =>
      if e.thm == f.thm then scanInner m e i rest
      else
        match alphaEquivT (m e.gen) (m f.gen) with
        | Option.none => ([], true)
        | Option.some true =>
            let (ps, c) := scanInner m e i rest
            ((i, j) :: ps, c)
        | Option.some false => scanInner m e i rest

/-- The outer loop of `find_alpha_equiv_goals` over indices `i`, scanning
every later index `j > i`. -/
def scanOuter (m : String → Term) : List (Nat × GoalEntry) → List (Nat × Nat) × Bool
  | [] => ([], false)
  | (i, e) :: rest =>
      match scanInner m e i rest with
      | (ps, true) => (ps, true)
      | (ps, false) =>
          let (ps', c) := scanOuter m rest
          (ps ++ ps', c)

/-- `find_alpha_equiv_goals` (alpha.py), abstracted from its report file:
the ordered list of emitted index pairs `(i, j)` with `i < j`, plus a flag
recording whether the scan aborted with a raised exception. -/
def find_alpha_equiv_goals (m : String → Term) (l : List GoalEntry) :
    List (Nat × Nat) × Bool :=
  scanOuter m (enumFrom 0 l)

/-- Length of the right spine of nested `Product` layers. -/
def prodSpine : Term → Nat
  | .Product _ _ b => prodSpine b + 1
  | _ => 0

/-- A `Match` with two case clauses whose bodies differ (`Var "x"` vs
`Var "y"`), one subject, and a present return type. -/
def matchTwoCases : Term :=
  Term.Match
    (Subjects.cons (MatchSubject.mk (Term.Var "s") Option.none Option.none) Subjects.nil)
    (Cases.cons (CaseClause.mk [Pattern.mk ["C"] Option.none] (Term.Var "x"))
      (Cases.cons (CaseClause.mk [Pattern.mk ["D"] Option.none] (Term.Var "y")) Cases.nil))
    (OptTerm.some (Term.Var "T"))

/-- A `Match` with an aliased subject and no return type: `alpha_equiv`
against any `Match` with one subject-bound variable raises (`None.subst`
on the deep-copied absent return type). -/
def crashMatch : Term :=
  Term.Match
    (Subjects.cons (MatchSubject.mk (Term.Var "s") (Option.some "a") Option.none) Subjects.nil)
    Cases.nil OptTerm.none

/-- A concrete parser abstraction for the `generalize` scenario: the goal
`y = y` has the free variable `y`; the hypothesis type `vec x` has free
variables `vec` and `x`; the hypothesis type `nat` has the free variable
`nat`. -/
def fvOfEx : String → List String :=
  fun s =>
    if s = "y = y" then ["y"]
    else if s = "vec x" then ["vec", "x"]
    else if s = "nat" then ["nat"]
    else []

/-- Cached AST map for the clone-scan counterexample: two entries whose
shared AST makes `alpha_equiv` raise, and two alpha-equivalent entries
after them. -/
def m9 : String → Term :=
  fun s => if s = "g0" || s = "g1" then crashMatch else Term.Var "z"

/-- Candidate list for the clone-scan counterexample: four goals from four
distinct theorems. -/
def l9 : List GoalEntry :=
  [GoalEntry.mk "G0" "A" "f.v" [] "g0",
   GoalEntry.mk "G1" "B" "f.v" [] "g1",
   GoalEntry.mk "G2" "C" "f.v" [] "g2",
   GoalEntry.mk "G3" "D" "f.v" [] "g3"]

/-- Cached AST map for the redundancy-filter witness: `P` is a `Product`
whose body is literally the AST of `Q`. -/
def m8 : String → Term :=
  fun s => if s = "P" then Term.Product "x" (Term.Var "T") (Term.Var "c") else Term.Var "c"

/-- Candidate generalized texts for the redundancy-filter witness. -/
def l8 : List String := ["P", "Q"]

/-- Candidate list for the clone-scan witness: two alpha-equivalent goals
from two distinct theorems. -/
def lW : List GoalEntry :=
  [GoalEntry.mk "G2" "C" "f.v" [] "g2",
   GoalEntry.mk "G3" "D" "f.v" [] "g3"]

/-- Edge correctness of a result list: every listed node precedes all of
its successors. -/
def Good (adj : Adj) (res : List String) : Prop :=
  ∀ u succs, u ∈ res → adjFind adj u = Option.some succs →
    ∀ v ∈ succs, v ∈ res ∧ res.indexOf u < res.indexOf v

/-- Invariant of the DFS state `(visited, res)` relative to the current
recursion path `locals`: the result list is duplicate-free, visited nodes
are exactly the finished ones plus the current path, no finished node is
on the path, and the finished prefix is edge-correct. -/
def DfsInv (adj : Adj) (locals visited res : List String) : Prop :=
  res.Nodup ∧
  (∀ x ∈ res, x ∈ visited) ∧
  (∀ x ∈ locals, x ∈ visited) ∧
  (∀ x ∈ visited, x ∈ res ∨ x ∈ locals) ∧
  (∀ x ∈ res, x ∉ locals) ∧
  Good adj res

theorem beqPat_refl (p : Pattern) : beqPat p p = true := by
  simp [beqPat]

theorem beqPatterns_refl : ∀ ps : List Pattern, beqPatterns ps ps = true
  | [] => by simp [beqPatterns]
  | p :: ps => by simp [beqPatterns, beqPat_refl p, beqPatterns_refl ps]

theorem casesElem_cons_weaken (c x : CaseClause) (b : Cases)
    (h : casesElem c b = true) : casesElem c (Cases.cons x b) = true := by
  simp [casesElem, h]

theorem casesSubset_cons_right :
    ∀ (a : Cases) (x : CaseClause) (b : Cases),
      casesSubset a b = true → casesSubset a (Cases.cons x b) = true
  | .nil, _, _, _ => by simp [casesSubset]
  | .cons c cs, x, b, h => by
      simp [casesSubset] at h ⊢
      exact ⟨casesElem_cons_weaken c x b h.1, casesSubset_cons_right cs x b h.2⟩

mutual

theorem beqT_refl : ∀ t : Term, beqT t t = true
  | .Var n => by simp [beqT]
  | .Sort' n a => by simp [beqT]
  | .Fun x ty b => by simp [beqT, beqT_refl ty, beqT_refl b]
  | .Product x ty b => by simp [beqT, beqT_refl ty, beqT_refl b]
  | .Let x ty d b => by simp [beqT, beqT_refl ty, beqT_refl b, beqT_refl d]
  | .Cond g rt th el ga => by
      simp [beqT, beqT_refl g, beqT_refl rt, beqT_refl th, beqT_refl el]
  | .Fix f ps rt b st => by
      simp [beqT, beqBinders_refl ps, beqT_refl rt, beqT_refl b]
  | .Match subs cs rt => by
      simp [beqT, beqSubjects_refl subs, casesSubset_self cs, beqOptT_refl rt]
  | .Cast t ty => by simp [beqT, beqT_refl t, beqT_refl ty]
  | .App f a => by simp [beqT, beqT_refl f, beqT_refl a]

theorem beqOptT_refl : ∀ o : OptTerm, beqOptT o o = true
  | .none => by simp [beqOptT]
  | .some t => by simp [beqOptT, beqT_refl t]

theorem beqBinders_refl : ∀ bs : Binders, beqBinders bs bs = true
  | .nil => by simp [beqBinders]
  | .cons (Binder.mk ns ty) bs => by
      simp [beqBinders, beqB, beqT_refl ty, beqBinders_refl bs]

theorem beqSubjects_refl : ∀ ss : Subjects, beqSubjects ss ss = true
  | .nil => by simp [beqSubjects]
  | .cons (MatchSubject.mk t ta p) ss => by
      cases p <;> simp [beqSubjects, beqMS, beqPat_refl, beqT_refl t, beqSubjects_refl ss]

theorem beqCC_refl : ∀ c : CaseClause, beqCC c c = true
  | .mk ps b => by simp [beqCC, beqPatterns_refl ps, beqT_refl b]

theorem casesSubset_self : ∀ cs : Cases, casesSubset cs cs = true
  | .nil => by simp [casesSubset]
  | .cons c cs => by
      have h1 : casesElem c (Cases.cons c cs) = true := by simp [casesElem, beqCC_refl c]
      have h2 : casesSubset cs (Cases.cons c cs) = true :=
        casesSubset_cons_right cs c cs (casesSubset_self cs)
      simp [casesSubset, h1, h2]

end

/-- Claim C10: literal structural equality on `Fun`, `Product`, and `Let`
ignores the bound variable's name: `Fun(x, ty, b) == Fun(y, ty, b)` for
all names `x`, `y` (and likewise for `Product`, and for `Let` with equal
definitions), since `TermAbstraction.__eq__` compares only the variable's
type, the body, and (for `Let`) the definition. -/
theorem literal_eq_ignores_binder_name :
    (∀ x y ty b, beqT (Term.Fun x ty b) (Term.Fun y ty b) = true) ∧
    (∀ x y ty b, beqT (Term.Product x ty b) (Term.Product y ty b) = true) ∧
    (∀ x y ty d b, beqT (Term.Let x ty d b) (Term.Let y ty d b) = true) := by
  refine ⟨fun x y ty b => ?_, fun x y ty b => ?_, fun x y ty d b => ?_⟩ <;>
    simp [beqT, beqT_refl]

set_option maxHeartbeats 2000000 in
/-- Claim C1 (failing input): `alpha_equiv` is not reflexive on a `Match`
with two non-equivalent case clauses — `Match.alpha_equiv` compares all
pairs of arms, so `t.alpha_equiv(t)` returns `False` here rather than
`True`. -/
theorem alpha_equiv_not_reflexive_on_match :
    alphaEquivT matchTwoCases matchTwoCases = Option.some false := by
  simp [matchTwoCases, alphaEquivT, alphaCasesOuter, alphaCasesInner, alphaCC, ccBoundNonWild,
    Pattern.get_bound_vars, substSeq, substPairs, sortStr, beqT, casesLen, subjectsLen,
    subjectsBvsNonWild, subjectsBoundAll, MatchSubject.get_bound_vars, substSeqOpt]

/-- Claim C5 (failing input): `Match.subst` calls `self.__ret_ty.subst`
even when the optional return type is absent, raising an
`AttributeError` (`None.subst`) whenever the substituted variable is not
bound by the subjects — here substituting `x` (which does not occur at
all) in `match s with end`. -/
theorem match_subst_raises_without_return_type :
    substE
      (Term.Match
        (Subjects.cons (MatchSubject.mk (Term.Var "s") Option.none Option.none) Subjects.nil)
        Cases.nil OptTerm.none)
      "x" "y" = Option.none := rfl

set_option maxHeartbeats 2000000 in
/-- Claim C2 (counterexample): two `Fun` terms with the same top-level
bound variable but nested binders of differing names (`a` vs `b`, not
shared) are reported alpha-equivalent — refuting the claim that such a
pair yields `False`. -/
theorem nested_binders_equiv_when_top_vars_equal :
    alphaEquivT (Term.Fun "x" (Term.Var "T") (Term.Fun "a" (Term.Var "T") (Term.Var "a")))
      (Term.Fun "x" (Term.Var "T") (Term.Fun "b" (Term.Var "T") (Term.Var "b"))) =
      Option.some true := by
  simp [alphaEquivT, beqT, substVal, substE, substTopNone, pyOptEqT, synthName]

/-- Claim C2 (amended): when the two top-level bound variables differ,
`Fun`/`Product`/`Let` decide alpha-equivalence by substituting the single
synthesized placeholder for each side's top-level bound variable in its
body and comparing the resulting Python values with literal equality;
when the top-level bound variables are identical, the bodies are instead
compared recursively with `alpha_equiv`. -/
theorem termabstraction_alpha_equiv_characterization :
    (∀ x y ty ty' b b', x ≠ y →
       alphaEquivT (Term.Fun x ty b) (Term.Fun y ty' b') =
         (alphaEquivT ty ty').bind (fun tb =>
           if tb then
             (substVal b x (synthName 0)).bind (fun v1 =>
               (substVal b' y (synthName 0)).bind (fun v2 =>
                 Option.some (pyOptEqT v1 v2)))
           else Option.some false)) ∧
    (∀ x y ty ty' b b', x ≠ y →
       alphaEquivT (Term.Product x ty b) (Term.Product y ty' b') =
         (alphaEquivT ty ty').bind (fun tb =>
           if tb then
             (substVal b x (synthName 0)).bind (fun v1 =>
               (substVal b' y (synthName 0)).bind (fun v2 =>
                 Option.some (pyOptEqT v1 v2)))
           else Option.some false)) ∧
    (∀ x y ty ty' d d' b b', x ≠ y →
       alphaEquivT (Term.Let x ty d b) (Term.Let y ty' d' b') =
         ((alphaEquivT ty ty').bind (fun tb =>
           if tb then
             (substVal b x (synthName 0)).bind (fun v1 =>
               (substVal b' y (synthName 0)).bind (fun v2 =>
                 Option.some (pyOptEqT v1 v2)))
           else Option.some false)).bind (fun s =>
             if s then alphaEquivT d d' else Option.some false)) ∧
    (∀ x ty ty' b b',
       alphaEquivT (Term.Fun x ty b) (Term.Fun x ty' b') =
         (alphaEquivT ty ty').bind (fun tb =>
           if tb then alphaEquivT b b' else Option.some false)) := by
  refine ⟨?_, ?_, ?_, ?_⟩
  · intro x y ty ty' b b' h
    have hxy : (x == y) = false := beq_eq_false_iff_ne.mpr h
    cases htb : alphaEquivT ty ty' with
    | none => simp [alphaEquivT, htb]
    | some tb => cases tb <;> simp [alphaEquivT, htb, hxy]
  · intro x y ty ty' b b' h
    have hxy : (x == y) = false := beq_eq_false_iff_ne.mpr h
    cases htb : alphaEquivT ty ty' with
    | none => simp [alphaEquivT, htb]
    | some tb => cases tb <;> simp [alphaEquivT, htb, hxy]
  · intro x y ty ty' d d' b b' h
    have hxy : (x == y) = false := beq_eq_false_iff_ne.mpr h
    cases htb : alphaEquivT ty ty' with
    | none => simp [alphaEquivT, htb]
    | some tb =>
      cases tb with
      | false => simp [alphaEquivT, htb]
      | true =>
        cases h1 : substVal b x (synthName 0) with
        | none => simp [alphaEquivT, htb, hxy, h1]
        | some v1 =>
          cases h2 : substVal b' y (synthName 0) with
          | none => simp [alphaEquivT, htb, hxy, h1, h2]
          | some v2 =>
            cases hpe : pyOptEqT v1 v2 <;> simp [alphaEquivT, htb, hxy, h1, h2, hpe]
  · intro x ty ty' b b'
    cases htb : alphaEquivT ty ty' with
    | none => simp [alphaEquivT, htb]
    | some tb => cases tb <;> simp [alphaEquivT, htb]

/-- Witness for the amended Claim C2, at the concrete pair
`fun (a : T) => a` vs `fun (b : T) => b`. -/
theorem termabstraction_alpha_equiv_characterization_witness :
    alphaEquivT (Term.Fun "a" (Term.Var "T") (Term.Var "a"))
        (Term.Fun "b" (Term.Var "T") (Term.Var "b")) =
      (alphaEquivT (Term.Var "T") (Term.Var "T")).bind (fun tb =>
        if tb then
          (substVal (Term.Var "a") "a" (synthName 0)).bind (fun v1 =>
            (substVal (Term.Var "b") "b" (synthName 0)).bind (fun v2 =>
              Option.some (pyOptEqT v1 v2)))
        else Option.some false) :=
  termabstraction_alpha_equiv_characterization.1 "a" "b" (Term.Var "T") (Term.Var "T")
    (Term.Var "a") (Term.Var "b") (by decide)

/-- Claim C3 (counterexample): `Cond.free_vars` omits the guard's free
variables entirely — `g` is free in the guard of
`if g return T then a else b` yet absent from its `free_vars`. -/
theorem cond_free_vars_omits_guard :
    ¬ ("g" ∈ freeVars
        (Term.Cond (Term.Var "g") (Term.Var "T") (Term.Var "a") (Term.Var "b") Option.none)) := by
  decide

/-- Claim C3 (amended): `free_vars` removes the bound variable from a
`TermAbstraction` body's free variables (so `x ∉ free_vars(Fun(x, ty, b))`
whenever `x` is not free in `ty` itself), but a `Cond`'s free variables do
not depend on its guard at all, a `Match` does not remove its
subject-bound aliases from the return type's free variables, and a `Fix`
does not remove its bound names from the return type's free variables. -/
theorem free_vars_characterization :
    (∀ x ty b, x ∉ freeVars ty → x ∉ freeVars (Term.Fun x ty b)) ∧
    (∀ g g' rt th el ga,
       freeVars (Term.Cond g rt th el ga) = freeVars (Term.Cond g' rt th el ga)) ∧
    (∀ t a cs rt, a ∈ freeVars rt →
       a ∈ freeVars (Term.Match
         (Subjects.cons (MatchSubject.mk t (Option.some a) Option.none) Subjects.nil)
         cs (OptTerm.some rt))) ∧
    (∀ f ps rt b st x, x ∈ freeVars rt → x ∈ freeVars (Term.Fix f ps rt b st)) := by
  refine ⟨?_, ?_, ?_, ?_⟩
  · intro x ty b hty
    simp [freeVars, Finset.mem_union, Finset.mem_erase, hty]
  · intro g g' rt th el ga
    rfl
  · intro t a cs rt h
    simp [freeVars, optFvs, Finset.mem_union]
    tauto
  · intro f ps rt b st x h
    simp [freeVars, Finset.mem_union]
    tauto

/-- Witness for the amended Claim C3: `x` is not free in the type `T`, so
it is not free in `fun (x : T) => x`. -/
theorem free_vars_characterization_witness :
    ("x" ∉ freeVars (Term.Var "T")) ∧
    "x" ∉ freeVars (Term.Fun "x" (Term.Var "T") (Term.Var "x")) :=
  ⟨by decide, free_vars_characterization.1 "x" (Term.Var "T") (Term.Var "x") (by decide)⟩

/-- Claim C4 (counterexample): `Cond.subst` never touches the guard: the
free occurrence of `v` in the guard of `if v return T then v else b`
survives `subst(v, r)` even though the occurrence in the then-branch is
replaced. -/
theorem cond_subst_skips_guard :
    substE (Term.Cond (Term.Var "v") (Term.Var "T") (Term.Var "v") (Term.Var "b") Option.none)
        "v" "r" =
      Option.some
        (Term.Cond (Term.Var "v") (Term.Var "T") (Term.Var "r") (Term.Var "b") Option.none) :=
  rfl

/-- Claim C4 (amended): `subst` replaces free occurrences of the variable
in the subtrees it visits and respects shadowing — a `Fun` body is left
untouched when the substituted variable is the bound variable — but it
never descends into a `Cond`'s guard, which survives unchanged. -/
theorem subst_characterization :
    (∀ g rt th el ga v r t',
       substE (Term.Cond g rt th el ga) v r = Option.some t' →
       ∃ rt' th' el', t' = Term.Cond g rt' th' el' ga) ∧
    (∀ v ty b r t',
       substE (Term.Fun v ty b) v r = Option.some t' →
       ∃ ty', t' = Term.Fun v ty' b) ∧
    (∀ v r, substE (Term.Var v) v r = Option.some (Term.Var r)) ∧
    (∀ n v r, n ≠ v → substE (Term.Var n) v r = Option.some (Term.Var n)) := by
  refine ⟨?_, ?_, ?_, ?_⟩
  · intro g rt th el ga v r t' h
    cases hth : substE th v r with
    | none => simp [substE, hth] at h
    | some th' =>
      cases hel : substE el v r with
      | none => simp [substE, hth, hel] at h
      | some el' =>
        cases ga with
        | none =>
          cases hrt : substE rt v r with
          | none => simp [substE, hth, hel, hrt] at h
          | some rt' =>
            simp [substE, hth, hel, hrt] at h
            exact ⟨rt', th', el', h.symm⟩
        | some a =>
          by_cases hav : (a == v) = true
          · simp [substE, hth, hel, hav] at h
            exact ⟨rt, th', el', h.symm⟩
          · simp only [Bool.not_eq_true] at hav
            cases hrt : substE rt v r with
            | none => simp [substE, hth, hel, hav, hrt] at h
            | some rt' =>
              simp [substE, hth, hel, hav, hrt] at h
              exact ⟨rt', th', el', h.symm⟩
  · intro v ty b r t' h
    cases hty : substE ty v r with
    | none => simp [substE, hty] at h
    | some ty' =>
      simp [substE, hty] at h
      exact ⟨ty', h.symm⟩
  · intro v r
    simp [substE]
  · intro n v r h
    simp [substE, beq_eq_false_iff_ne.mpr h]

/-- Witness for the amended Claim C4: applying the `Cond` clause at the
counterexample input shows the substituted conditional keeps its guard
`v` and alias unchanged. -/
theorem subst_characterization_witness :
    ∃ rt' th' el',
      Term.Cond (Term.Var "v") (Term.Var "T") (Term.Var "r") (Term.Var "b") Option.none =
        Term.Cond (Term.Var "v") rt' th' el' Option.none :=
  subst_characterization.1 (Term.Var "v") (Term.Var "T") (Term.Var "v") (Term.Var "b")
    Option.none "v" "r" _ rfl

theorem beqT_prodSpine : ∀ s t : Term, beqT s t = true → prodSpine s = prodSpine t
  | .Product x a b, t, h => by
      cases t <;> simp [beqT] at h
      case Product y a' b' =>
        simp [prodSpine, beqT_prodSpine b _ h.2]
  | .Var n, t, h => by cases t <;> simp_all [beqT, prodSpine]
  | .Sort' n a, t, h => by cases t <;> simp_all [beqT, prodSpine]
  | .Fun x ty b, t, h => by cases t <;> simp_all [beqT, prodSpine]
  | .Let x ty d b, t, h => by cases t <;> simp_all [beqT, prodSpine]
  | .Cond g rt th el ga, t, h => by cases t <;> simp_all [beqT, prodSpine]
  | .Fix f ps rt b st, t, h => by cases t <;> simp_all [beqT, prodSpine]
  | .Match subs cs rt, t, h => by cases t <;> simp_all [beqT, prodSpine]
  | .Cast tm ty, t, h => by cases t <;> simp_all [beqT, prodSpine]
  | .App f a, t, h => by cases t <;> simp_all [beqT, prodSpine]

theorem is_prod_body_spine : ∀ p t : Term, is_prod_body p t = true → prodSpine t < prodSpine p
  | .Product x a b, t, h => by
      simp [is_prod_body] at h
      cases h with
      | inl hbeq =>
          have hsp := beqT_prodSpine b t hbeq
          simp [prodSpine]
          omega
      | inr hrec =>
          have hsp := is_prod_body_spine b t hrec
          simp [prodSpine]
          omega
  | .Var n, t, h => by simp [is_prod_body] at h
  | .Sort' n a, t, h => by simp [is_prod_body] at h
  | .Fun x ty b, t, h => by simp [is_prod_body] at h
  | .Let x ty d b, t, h => by simp [is_prod_body] at h
  | .Cond g rt th el ga, t, h => by simp [is_prod_body] at h
  | .Fix f ps rt b st, t, h => by simp [is_prod_body] at h
  | .Match subs cs rt, t, h => by simp [is_prod_body] at h
  | .Cast tm ty, t, h => by simp [is_prod_body] at h
  | .App f a, t, h => by simp [is_prod_body] at h

/-- A term can never be literally equal to a proper unwrapping of a
`Product`'s body chain, so the claim's "distinct generalized AST"
qualifier is automatic. -/
theorem beq_false_of_is_prod_body (p t : Term) (hp : is_prod_body p t = true) :
    beqT p t = false := by
  cases hbeq : beqT p t with
  | false => rfl
  | true =>
      have h1 := beqT_prodSpine p t hbeq
      have h2 := is_prod_body_spine p t hp
      omega

theorem inner_collect_eq (c : String → Bool) :
    ∀ (l acc : List String),
      l.foldl (fun acc2 t => if c t then t :: acc2 else acc2) acc = (l.filter c).reverse ++ acc
  | [], _ => rfl
  | t :: ts, acc => by
      by_cases h : c t = true <;>
        simp [List.foldl_cons, h, inner_collect_eq c ts, List.filter_cons]

theorem mem_inner_collect (c : String → Bool) (l acc : List String) (x : String) :
    (x ∈ l.foldl (fun acc2 t => if c t then t :: acc2 else acc2) acc) ↔
      x ∈ acc ∨ (x ∈ l ∧ c x = true) := by
  rw [inner_collect_eq]
  simp [List.mem_filter]
  tauto

theorem mem_outer_collect (m : String → Term) (l : List String) :
    ∀ (outer acc : List String) (x : String),
      (x ∈ outer.foldl
          (fun acc s =>
            l.foldl (fun acc2 t =>
              if isProductB (m s) && is_prod_body (m s) (m t) then t :: acc2 else acc2) acc)
          acc) ↔
        x ∈ acc ∨ ∃ s, s ∈ outer ∧ x ∈ l ∧
          isProductB (m s) = true ∧ is_prod_body (m s) (m x) = true
  | [], acc, x => by simp
  | s :: ss, acc, x => by
      simp only [List.foldl_cons]
      rw [mem_outer_collect m l ss]
      rw [mem_inner_collect (fun t => isProductB (m s) && is_prod_body (m s) (m t)) l acc x]
      simp only [Bool.and_eq_true, List.mem_cons]
      constructor
      · rintro ((hx | ⟨hxl, h1, h2⟩) | ⟨s', hs', hxl, h1, h2⟩)
        · exact Or.inl hx
        · exact Or.inr ⟨s, Or.inl rfl, hxl, h1, h2⟩
        · exact Or.inr ⟨s', Or.inr hs', hxl, h1, h2⟩
      · rintro (hx | ⟨s', hs' | hs', hxl, h1, h2⟩)
        · exact Or.inl (Or.inl hx)
        · subst hs'
          exact Or.inl (Or.inr ⟨hxl, h1, h2⟩)
        · exact Or.inr ⟨s', hs', hxl, h1, h2⟩

theorem mem_redundantGoals (m : String → Term) (l : List String) (x : String) :
    x ∈ redundantGoals m l ↔
      ∃ s, s ∈ l ∧ x ∈ l ∧ isProductB (m s) = true ∧ is_prod_body (m s) (m x) = true := by
  unfold redundantGoals
  rw [mem_outer_collect m l l [] x]
  simp

/-- Claim C8: the redundancy filter drops a candidate `b` exactly when some
candidate `a` in the list — whose generalized AST is necessarily distinct
from `b`'s — is a `Product` and repeatedly unwrapping `a`'s body through
nested `Product` layers yields a subterm literally equal to `b`'s AST;
the source's loops range over all ordered pairs including `a = b`, but an
AST can never equal a proper unwrapping of itself, so the claim's
distinctness qualifier is equivalent. -/
theorem redundancy_filter_iff (m : String → Term) (l : List String) (b : String)
    (hb : b ∈ l) :
    b ∈ dropRedundantGoals m l ↔
      ¬ ∃ a, a ∈ l ∧ isProductB (m a) = true ∧ is_prod_body (m a) (m b) = true ∧
        beqT (m a) (m b) = false := by
  unfold dropRedundantGoals
  rw [List.mem_filter]
  have hcont : ((redundantGoals m l).contains b = true) ↔ b ∈ redundantGoals m l := by
    simp [List.contains]
  constructor
  · rintro ⟨-, hnot⟩ ⟨a, hal, h1, h2, -⟩
    rw [Bool.not_eq_true', ← Bool.not_eq_true] at hnot
    exact hnot (hcont.mpr ((mem_redundantGoals m l b).mpr ⟨a, hal, hb, h1, h2⟩))
  · intro hne
    refine ⟨hb, ?_⟩
    rw [Bool.not_eq_true', ← Bool.not_eq_true]
    intro hmem
    obtain ⟨a, hal, -, h1, h2⟩ := (mem_redundantGoals m l b).mp (hcont.mp hmem)
    exact hne ⟨a, hal, h1, h2, beq_false_of_is_prod_body (m a) (m b) h2⟩

/-- Witness for Claim C8: in the two-candidate list `[P, Q]`, where `P`'s
AST is `Product("x", T, c)` and `Q`'s AST is `c`, the filter drops `Q`. -/
theorem redundancy_filter_iff_witness : "Q" ∉ dropRedundantGoals m8 l8 := by
  intro hmem
  have h := (redundancy_filter_iff m8 l8 "Q" (by simp [l8])).mp hmem
  exact h ⟨"P", by simp [l8], by simp [m8, isProductB],
    by simp [m8, is_prod_body, beqT], by simp [m8, beqT]⟩

/-- Claim C7 (failing input): for goal `y = y` with local context
`x : nat, y : vec x` (so `y`'s type depends on `x`), `generalize` emits
`y`'s quantifier outermost and `x`'s innermost: the dependency `x` is
quantified inside the quantifier of the variable `y` whose type mentions
it, so `x` is not in scope at `y`'s type — the opposite nesting of what
the claim guarantees.  (`get_topological_ordering` already returns
dependents first; the subsequent `reverse()` puts dependencies innermost.) -/
theorem generalize_puts_dependency_innermost :
    generalizeM fvOfEx ["x : nat", "y : vec x"] "y = y" =
      Option.some "forall (y : vec x), (forall (x : nat), (y = y))" := rfl

theorem Good_cons (adj : Adj) (res : List String) (node : String) (succs : List String)
    (hres : Good adj res) (hnode : node ∉ res)
    (hadj : adjFind adj node = Option.some succs)
    (hsuccs : ∀ v ∈ succs, v ∈ res) :
    Good adj (node :: res) := by
  intro u s hu hs v hv
  rcases List.mem_cons.mp hu with hcase | hu
  · rw [hcase, hadj] at hs
    injection hs with hs
    subst hs
    have hvres := hsuccs v hv
    have hvne : node ≠ v := fun h => hnode (h ▸ hvres)
    refine ⟨List.mem_cons_of_mem _ hvres, ?_⟩
    rw [hcase, List.indexOf_cons_self, List.indexOf_cons_ne _ hvne]
    exact Nat.succ_pos _
  · obtain ⟨hvres, hlt⟩ := hres u s hu hs v hv
    have hune : node ≠ u := fun h => hnode (h ▸ hu)
    have hvne : node ≠ v := fun h => hnode (h ▸ hvres)
    refine ⟨List.mem_cons_of_mem _ hvres, ?_⟩
    rw [List.indexOf_cons_ne _ hune, List.indexOf_cons_ne _ hvne]
    omega

mutual

theorem dfsVisit_inv (adj : Adj) :
    ∀ (fuel : Nat) (node : String) (locals visited res v' r' : List String),
      DfsInv adj locals visited res → node ∉ visited →
      dfsVisit adj fuel node locals (visited, res) = Option.some (v', r') →
      DfsInv adj locals v' r' ∧ (∀ x ∈ visited, x ∈ v') ∧ (∀ x ∈ res, x ∈ r') ∧ node ∈ r'
  | 0, node, locals, visited, res, v', r', _, _, h => by simp [dfsVisit] at h
  | fuel + 1, node, locals, visited, res, v', r', hinv, hnv, h => by
      obtain ⟨hnd, hrv, hlv, hvrl, hrl, hgood⟩ := hinv
      simp only [dfsVisit] at h
      split at h
      · simp at h
      · rename_i succs hadj
        split at h
        · simp at h
        · rename_i st v0 r0 hrec
          simp only [Option.some.injEq, Prod.mk.injEq] at h
          obtain ⟨hv', hr'⟩ := h
          subst hv'
          subst hr'
          have hnr : node ∉ res := fun hx => hnv (hrv node hx)
          have hinv1 : DfsInv adj (node :: locals) (node :: visited) res := by
            refine ⟨hnd, ?_, ?_, ?_, ?_, hgood⟩
            · intro x hx
              exact List.mem_cons_of_mem _ (hrv x hx)
            · intro x hx
              rcases List.mem_cons.mp hx with rfl | hx
              · exact List.mem_cons_self _ _
              · exact List.mem_cons_of_mem _ (hlv x hx)
            · intro x hx
              rcases List.mem_cons.mp hx with rfl | hx
              · exact Or.inr (List.mem_cons_self _ _)
              · rcases hvrl x hx with hx' | hx'
                · exact Or.inl hx'
                · exact Or.inr (List.mem_cons_of_mem _ hx')
            · intro x hx hxl
              rcases List.mem_cons.mp hxl with rfl | hxl
              · exact hnr hx
              · exact hrl x hx hxl
          obtain ⟨⟨hnd1, hrv1, hlv1, hvrl1, hrl1, hgood1⟩, hvm, hrm, hsub⟩ :=
            dfsSuccs_inv adj fuel succs (node :: locals) (node :: visited) res v0 r0 hinv1 hrec
          have hnode_v0 : node ∈ v0 := hvm node (List.mem_cons_self _ _)
          have hnode_nr0 : node ∉ r0 := fun hx => hrl1 node hx (List.mem_cons_self _ _)
          have hnl : node ∉ locals := fun hx => hnv (hlv node hx)
          refine ⟨⟨?_, ?_, ?_, ?_, ?_, ?_⟩, ?_, ?_, ?_⟩
          · exact List.nodup_cons.mpr ⟨hnode_nr0, hnd1⟩
          · intro x hx
            rcases List.mem_cons.mp hx with rfl | hx
            · exact hnode_v0
            · exact hrv1 x hx
          · intro x hx
            exact hlv1 x (List.mem_cons_of_mem _ hx)
          · intro x hx
            rcases hvrl1 x hx with hx' | hx'
            · exact Or.inl (List.mem_cons_of_mem _ hx')
            · rcases List.mem_cons.mp hx' with rfl | hx'
              · exact Or.inl (List.mem_cons_self _ _)
              · exact Or.inr hx'
          · intro x hx hxl
            rcases List.mem_cons.mp hx with rfl | hx
            · exact hnl hxl
            · exact hrl1 x hx (List.mem_cons_of_mem _ hxl)
          · exact Good_cons adj r0 node succs hgood1 hnode_nr0 hadj hsub
          · intro x hx
            exact hvm x (List.mem_cons_of_mem _ hx)
          · intro x hx
            exact List.mem_cons_of_mem _ (hrm x hx)
          · exact List.mem_cons_self _ _

theorem dfsSuccs_inv (adj : Adj) :
    ∀ (fuel : Nat) (vs locals visited res v' r' : List String),
      DfsInv adj locals visited res →
      dfsSuccs adj fuel vs locals (visited, res) = Option.some (v', r') →
      DfsInv adj locals v' r' ∧ (∀ x ∈ visited, x ∈ v') ∧ (∀ x ∈ res, x ∈ r') ∧
        (∀ v ∈ vs, v ∈ r')
  | 0, vs, locals, visited, res, v', r', _, h => by simp [dfsSuccs] at h
  | _ + 1, [], locals, visited, res, v', r', hinv, h => by
      simp only [dfsSuccs, Option.some.injEq, Prod.mk.injEq] at h
      obtain ⟨hv, hr⟩ := h
      subst hv
      subst hr
      exact ⟨hinv, fun x hx => hx, fun x hx => hx, by simp⟩
  | fuel + 1, v :: vs, locals, visited, res, v', r', hinv, h => by
      simp only [dfsSuccs] at h
      by_cases hvis : visited.contains v = true
      · rw [if_pos hvis] at h
        by_cases hloc : locals.contains v = true
        · rw [if_pos hloc] at h
          simp at h
        · rw [if_neg hloc] at h
          obtain ⟨hinv', hvm, hrm, htail⟩ :=
            dfsSuccs_inv adj fuel vs locals visited res v' r' hinv h
          refine ⟨hinv', hvm, hrm, ?_⟩
          intro w hw
          rcases List.mem_cons.mp hw with rfl | hw
          · obtain ⟨-, -, -, hvrl, -, -⟩ := hinv
            have hvmem : w ∈ visited := by simpa using hvis
            rcases hvrl w hvmem with hx | hx
            · exact hrm w hx
            · exact absurd (by simpa using hx) hloc
          · exact htail w hw
      · rw [if_neg hvis] at h
        split at h
        · simp at h
        · rename_i st hv1
          obtain ⟨v1, r1⟩ := st
          have hvnot : v ∉ visited := fun hx => hvis (by simpa using hx)
          obtain ⟨hinv1, hvm1, hrm1, hvmem1⟩ :=
            dfsVisit_inv adj fuel v locals visited res v1 r1 hinv hvnot hv1
          obtain ⟨hinv2, hvm2, hrm2, htail⟩ :=
            dfsSuccs_inv adj fuel vs locals v1 r1 v' r' hinv1 h
          refine ⟨hinv2, fun x hx => hvm2 x (hvm1 x hx), fun x hx => hrm2 x (hrm1 x hx), ?_⟩
          intro w hw
          rcases List.mem_cons.mp hw with rfl | hw
          · exact hrm2 w hvmem1
          · exact htail w hw

end

theorem topoGo_inv (adj : Adj) (fuel : Nat) :
    ∀ (ks : List String) (visited res out : List String),
      DfsInv adj [] visited res →
      topoGo adj fuel ks (visited, res) = Option.some out →
      Good adj out ∧ (∀ x ∈ res, x ∈ out) ∧ (∀ k ∈ ks, k ∈ out)
  | [], visited, res, out, hinv, h => by
      simp only [topoGo, Option.some.injEq] at h
      subst h
      exact ⟨hinv.2.2.2.2.2, fun x hx => hx, by simp⟩
  | k :: ks, visited, res, out, hinv, h => by
      simp only [topoGo] at h
      by_cases hvis : visited.contains k = true
      · rw [if_pos hvis] at h
        obtain ⟨hgood, hres, hks⟩ := topoGo_inv adj fuel ks visited res out hinv h
        refine ⟨hgood, hres, ?_⟩
        intro w hw
        rcases List.mem_cons.mp hw with rfl | hw
        · obtain ⟨-, -, -, hvrl, -, -⟩ := hinv
          rcases hvrl w (by simpa using hvis) with hx | hx
          · exact hres w hx
          · simp at hx
        · exact hks w hw
      · rw [if_neg hvis] at h
        split at h
        · simp at h
        · rename_i st hv1
          obtain ⟨v1, r1⟩ := st
          have hknot : k ∉ visited := fun hx => hvis (by simpa using hx)
          obtain ⟨hinv1, hvm1, hrm1, hkmem⟩ :=
            dfsVisit_inv adj fuel k [] visited res v1 r1 hinv hknot hv1
          obtain ⟨hgood, hres, hks⟩ := topoGo_inv adj fuel ks v1 r1 out hinv1 h
          refine ⟨hgood, fun x hx => hres x (hrm1 x hx), ?_⟩
          intro w hw
          rcases List.mem_cons.mp hw with rfl | hw
          · exact hres w hkmem
          · exact hks w hw

theorem adjFind_mem_keys : ∀ (adj : Adj) (s : String) (succs : List String),
    adjFind adj s = Option.some succs → s ∈ adj.map Prod.fst
  | [], s, succs, h => by simp [adjFind] at h
  | (k, vs) :: rest, s, succs, h => by
      simp only [adjFind] at h
      by_cases hk : (k == s) = true
      · have hks : k = s := by simpa using hk
        simp [List.map_cons, hks]
      · rw [if_neg hk] at h
        simp only [List.map_cons, List.mem_cons]
        exact Or.inr (adjFind_mem_keys rest s succs h)

theorem get_topological_ordering_edges (adj : Adj) (out : List String)
    (h : get_topological_ordering adj = Option.some out)
    (s : String) (succs : List String) (hs : adjFind adj s = Option.some succs)
    (d : String) (hd : d ∈ succs) :
    s ∈ out ∧ d ∈ out ∧ out.indexOf s < out.indexOf d := by
  unfold get_topological_ordering at h
  have hinv0 : DfsInv adj [] [] [] := by
    refine ⟨List.nodup_nil, ?_, ?_, ?_, ?_, ?_⟩ <;> simp [Good]
  obtain ⟨hgood, hres, hks⟩ :=
    topoGo_inv adj (adjWeight adj + 1) (adj.map Prod.fst) [] [] out hinv0 h
  have hsout : s ∈ out := hks s (adjFind_mem_keys adj s succs hs)
  obtain ⟨hdout, hlt⟩ := hgood s succs hsout hs d hd
  exact ⟨hsout, hdout, hlt⟩

/-- Claim C6 (counterexample): for the single-edge graph `a → b` built by
`add_edge(a, b)`, `get_topological_ordering` returns `[a, b]` — the
destination `b` does not appear before the source `a`. -/
theorem topological_ordering_not_dependency_first :
    get_topological_ordering (buildDag [DagOp.addEdge "a" "b"]) = Option.some ["a", "b"] ∧
    ¬ (["a", "b"].indexOf "b" < ["a", "b"].indexOf "a") := ⟨rfl, by decide⟩

/-- Claim C6 (amended): for every `VarDAG` built by any sequence of
`add_node`/`add_edge` calls on which `get_topological_ordering` returns a
list (the input is acyclic), the list is dependent-first: for every edge
`s → d`, both endpoints occur and `s` appears strictly before `d`
(post-order nodes are inserted at the front of the result, so every node
precedes its successors; `generalize` then reverses this order). -/
theorem topological_ordering_dependent_first (ops : List DagOp) (out : List String)
    (h : get_topological_ordering (buildDag ops) = Option.some out)
    (s : String) (succs : List String)
    (hs : adjFind (buildDag ops) s = Option.some succs)
    (d : String) (hd : d ∈ succs) :
    s ∈ out ∧ d ∈ out ∧ out.indexOf s < out.indexOf d :=
  get_topological_ordering_edges (buildDag ops) out h s succs hs d hd

/-- Witness for the amended Claim C6 on the single-edge graph `a → b`. -/
theorem topological_ordering_dependent_first_witness :
    "a" ∈ ["a", "b"] ∧ "b" ∈ ["a", "b"] ∧
      (["a", "b"].indexOf "a" < ["a", "b"].indexOf "b") :=
  topological_ordering_dependent_first [DagOp.addEdge "a" "b"] ["a", "b"] rfl
    "a" ["b"] rfl "b" (by decide)

theorem mem_enumFrom {α : Type} : ∀ (l : List α) (k j : Nat) (a : α),
    (j, a) ∈ enumFrom k l → k ≤ j ∧ l.get? (j - k) = Option.some a
  | [], k, j, a, h => by simp [enumFrom] at h
  | x :: xs, k, j, a, h => by
      simp only [enumFrom, List.mem_cons] at h
      rcases h with h | h
      · injection h with hj hx
        subst hj
        subst hx
        simp
      · obtain ⟨hk, hget⟩ := mem_enumFrom xs (k + 1) j a h
        refine ⟨by omega, ?_⟩
        have : j - k = (j - (k + 1)) + 1 := by omega
        rw [this, List.get?_cons_succ]
        exact hget

theorem get_mem_enumFrom {α : Type} : ∀ (l : List α) (k n : Nat) (a : α),
    l.get? n = Option.some a → (k + n, a) ∈ enumFrom k l
  | [], k, n, a, h => by simp at h
  | x :: xs, k, 0, a, h => by
      simp at h
      subst h
      simp [enumFrom]
  | x :: xs, k, n + 1, a, h => by
      rw [List.get?_cons_succ] at h
      have := get_mem_enumFrom xs (k + 1) n a h
      simp only [enumFrom, List.mem_cons]
      right
      have harith : k + 1 + n = k + (n + 1) := by omega
      rw [harith] at this
      exact this

theorem scanInner_sound (m : String → Term) (e : GoalEntry) (i : Nat) :
    ∀ (rest : List (Nat × GoalEntry)) (ps : List (Nat × Nat)) (c : Bool),
      scanInner m e i rest = (ps, c) →
      ∀ q ∈ ps, q.1 = i ∧ ∃ f, (q.2, f) ∈ rest ∧ e.thm ≠ f.thm ∧
        alphaEquivT (m e.gen) (m f.gen) = Option.some true
  | [], ps, c, h => by
      simp only [scanInner] at h
      injection h with h1 h2
      subst h1
      simp
  | (j, f) :: rest, ps, c, h => by
      simp only [scanInner] at h
      by_cases hthm : (e.thm == f.thm) = true
      · rw [if_pos hthm] at h
        intro q hq
        obtain ⟨hq1, f', hf', hne, ha⟩ := scanInner_sound m e i rest ps c h q hq
        exact ⟨hq1, f', List.mem_cons_of_mem _ hf', hne, ha⟩
      · rw [if_neg hthm] at h
        cases ha : alphaEquivT (m e.gen) (m f.gen) with
        | none =>
            rw [ha] at h
            injection h with h1 h2
            subst h1
            simp
        | some b =>
            rw [ha] at h
            cases b with
            | true =>
                simp only at h
                cases hrec : scanInner m e i rest with
                | mk ps' c' =>
                    rw [hrec] at h
                    injection h with h1 h2
                    subst h1
                    intro q hq
                    rcases List.mem_cons.mp hq with rfl | hq
                    · exact ⟨rfl, f, List.mem_cons_self _ _, by simpa using hthm, ha⟩
                    · obtain ⟨hq1, f', hf', hne, ha'⟩ :=
                        scanInner_sound m e i rest ps' c' hrec q hq
                      exact ⟨hq1, f', List.mem_cons_of_mem _ hf', hne, ha'⟩
            | false =>
                simp only at h
                intro q hq
                obtain ⟨hq1, f', hf', hne, ha'⟩ := scanInner_sound m e i rest ps c h q hq
                exact ⟨hq1, f', List.mem_cons_of_mem _ hf', hne, ha'⟩

theorem scanInner_complete (m : String → Term) (e : GoalEntry) (i : Nat) :
    ∀ (rest : List (Nat × GoalEntry)) (ps : List (Nat × Nat)),
      scanInner m e i rest = (ps, false) →
      ∀ j f, (j, f) ∈ rest → e.thm ≠ f.thm →
        alphaEquivT (m e.gen) (m f.gen) = Option.some true → (i, j) ∈ ps
  | [], ps, h, j, f, hjf, _, _ => by simp at hjf
  | (j0, f0) :: rest, ps, h, j, f, hjf, hne, ha => by
      simp only [scanInner] at h
      by_cases hthm : (e.thm == f0.thm) = true
      · rw [if_pos hthm] at h
        rcases List.mem_cons.mp hjf with heq | hjf
        · injection heq with h1 h2
          subst h1
          subst h2
          exact absurd (by simpa using hthm) hne
        · exact scanInner_complete m e i rest ps h j f hjf hne ha
      · rw [if_neg hthm] at h
        cases ha0 : alphaEquivT (m e.gen) (m f0.gen) with
        | none =>
            rw [ha0] at h
            injection h with h1 h2
            exact absurd h2.symm (by simp)
        | some b =>
            rw [ha0] at h
            cases b with
            | true =>
                simp only at h
                cases hrec : scanInner m e i rest with
                | mk ps' c' =>
                    rw [hrec] at h
                    injection h with h1 h2
                    subst h1
                    subst h2
                    rcases List.mem_cons.mp hjf with heq | hjf
                    · injection heq with h1 h2
                      subst h1
                      exact List.mem_cons_self _ _
                    · exact List.mem_cons_of_mem _
                        (scanInner_complete m e i rest ps' hrec j f hjf hne ha)
            | false =>
                simp only at h
                rcases List.mem_cons.mp hjf with heq | hjf
                · injection heq with h1 h2
                  subst h1
                  subst h2
                  rw [ha0] at ha
                  exact absurd ha (by simp)
                · exact scanInner_complete m e i rest ps h j f hjf hne ha

theorem scanOuter_sound_enum (m : String → Term) :
    ∀ (l : List GoalEntry) (k : Nat) (ps : List (Nat × Nat)) (c : Bool),
      scanOuter m (enumFrom k l) = (ps, c) →
      ∀ q ∈ ps, ∃ e f,
        l.get? (q.1 - k) = Option.some e ∧ l.get? (q.2 - k) = Option.some f ∧
        k ≤ q.1 ∧ q.1 < q.2 ∧ e.thm ≠ f.thm ∧
        alphaEquivT (m e.gen) (m f.gen) = Option.some true
  | [], k, ps, c, h => by
      simp only [enumFrom, scanOuter] at h
      injection h with h1 h2
      subst h1
      simp
  | x :: xs, k, ps, c, h => by
      simp only [enumFrom, scanOuter] at h
      cases hin : scanInner m x k (enumFrom (k + 1) xs) with
      | mk ps1 c1 =>
          rw [hin] at h
          have inner_case : ∀ q ∈ ps1, ∃ e f,
              (x :: xs).get? (q.1 - k) = Option.some e ∧
              (x :: xs).get? (q.2 - k) = Option.some f ∧
              k ≤ q.1 ∧ q.1 < q.2 ∧ e.thm ≠ f.thm ∧
              alphaEquivT (m e.gen) (m f.gen) = Option.some true := by
            intro q hq
            obtain ⟨hq1, f, hf, hne, ha⟩ := scanInner_sound m x k _ ps1 c1 hin q hq
            obtain ⟨hk1, hget⟩ := mem_enumFrom xs (k + 1) q.2 f hf
            refine ⟨x, f, ?_, ?_, by omega, by omega, hne, ha⟩
            · rw [hq1, Nat.sub_self]
              rfl
            · have hq2 : q.2 - k = (q.2 - (k + 1)) + 1 := by omega
              rw [hq2, List.get?_cons_succ]
              exact hget
          cases c1 with
          | true =>
              simp only at h
              injection h with h1 h2
              subst h1
              exact inner_case
          | false =>
              simp only at h
              cases hout : scanOuter m (enumFrom (k + 1) xs) with
              | mk ps2 c2 =>
                  rw [hout] at h
                  injection h with h1 h2
                  subst h1
                  intro q hq
                  rcases List.mem_append.mp hq with hq | hq
                  · exact inner_case q hq
                  · obtain ⟨e, f, he, hf, hkq, hqq, hne, ha⟩ :=
                      scanOuter_sound_enum m xs (k + 1) ps2 c2 hout q hq
                    refine ⟨e, f, ?_, ?_, by omega, hqq, hne, ha⟩
                    · have hq1 : q.1 - k = (q.1 - (k + 1)) + 1 := by omega
                      rw [hq1, List.get?_cons_succ]
                      exact he
                    · have hq2 : q.2 - k = (q.2 - (k + 1)) + 1 := by omega
                      rw [hq2, List.get?_cons_succ]
                      exact hf

theorem scanOuter_complete_enum (m : String → Term) :
    ∀ (l : List GoalEntry) (k : Nat) (ps : List (Nat × Nat)),
      scanOuter m (enumFrom k l) = (ps, false) →
      ∀ i j e f, l.get? (i - k) = Option.some e → l.get? (j - k) = Option.some f →
        k ≤ i → i < j → e.thm ≠ f.thm →
        alphaEquivT (m e.gen) (m f.gen) = Option.some true → (i, j) ∈ ps
  | [], k, ps, h, i, j, e, f, he, hf, hki, hij, hne, ha => by simp at he
  | x :: xs, k, ps, h, i, j, e, f, he, hf, hki, hij, hne, ha => by
      simp only [enumFrom, scanOuter] at h
      cases hin : scanInner m x k (enumFrom (k + 1) xs) with
      | mk ps1 c1 =>
          rw [hin] at h
          cases c1 with
          | true =>
              simp only at h
              injection h with h1 h2
              exact absurd h2.symm (by simp)
          | false =>
              simp only at h
              cases hout : scanOuter m (enumFrom (k + 1) xs) with
              | mk ps2 c2 =>
                  rw [hout] at h
                  injection h with h1 h2
                  subst h1
                  subst h2
                  by_cases hik : i = k
                  · subst hik
                    rw [Nat.sub_self] at he
                    simp only [List.get?_cons_zero, Option.some.injEq] at he
                    subst he
                    have hjk : j - i = (j - (i + 1)) + 1 := by omega
                    rw [hjk, List.get?_cons_succ] at hf
                    have hmem := get_mem_enumFrom xs (i + 1) (j - (i + 1)) f hf
                    have harith : i + 1 + (j - (i + 1)) = j := by omega
                    rw [harith] at hmem
                    exact List.mem_append.mpr
                      (Or.inl (scanInner_complete m x i _ ps1 hin j f hmem hne ha))
                  · have hki1 : k + 1 ≤ i := by omega
                    have hie : i - k = (i - (k + 1)) + 1 := by omega
                    rw [hie, List.get?_cons_succ] at he
                    have hje : j - k = (j - (k + 1)) + 1 := by omega
                    rw [hje, List.get?_cons_succ] at hf
                    exact List.mem_append.mpr
                      (Or.inr (scanOuter_complete_enum m xs (k + 1) ps2 hout i j e f
                        he hf hki1 hij hne ha))

/-- Claim C9 (counterexample): a raised exception inside `alpha_equiv`
aborts the whole scan, so a later qualifying pair is not emitted: with
four candidates whose first two share an AST on which `alpha_equiv`
raises (`None.subst` on the absent return type), the emitted pair list is
empty even though candidates 2 and 3 carry different theorem names and
alpha-equivalent ASTs. -/
theorem clone_scan_abort_loses_pairs :
    (find_alpha_equiv_goals m9 l9).1 = [] ∧
    (find_alpha_equiv_goals m9 l9).2 = true ∧
    (l9.get? 2).map GoalEntry.thm = Option.some "C" ∧
    (l9.get? 3).map GoalEntry.thm = Option.some "D" ∧
    (l9.get? 2).map GoalEntry.gen = Option.some "g2" ∧
    (l9.get? 3).map GoalEntry.gen = Option.some "g3" ∧
    alphaEquivT (m9 "g2") (m9 "g3") = Option.some true := by
  refine ⟨rfl, rfl, rfl, rfl, rfl, rfl, ?_⟩
  simp [m9, alphaEquivT, beqT]

/-- Claim C9 (amended): every emitted pair `(i, j)` has `i < j`, differing
theorem names, and alpha-equivalent cached generalized ASTs — in
particular no pair from one theorem is ever reported; and when the scan
completes without a raised exception, every such qualifying pair is
emitted. -/
theorem clone_scan_characterization (m : String → Term) (l : List GoalEntry) :
    (∀ q, q ∈ (find_alpha_equiv_goals m l).1 →
       ∃ e f, l.get? q.1 = Option.some e ∧ l.get? q.2 = Option.some f ∧
         q.1 < q.2 ∧ e.thm ≠ f.thm ∧
         alphaEquivT (m e.gen) (m f.gen) = Option.some true) ∧
    ((find_alpha_equiv_goals m l).2 = false →
       ∀ i j e f, l.get? i = Option.some e → l.get? j = Option.some f →
         i < j → e.thm ≠ f.thm →
         alphaEquivT (m e.gen) (m f.gen) = Option.some true →
         (i, j) ∈ (find_alpha_equiv_goals m l).1) := by
  constructor
  · intro q hq
    cases hsc : scanOuter m (enumFrom 0 l) with
    | mk ps c =>
        have hfind : find_alpha_equiv_goals m l = (ps, c) := hsc
        rw [hfind] at hq
        obtain ⟨e, f, he, hf, -, hqq, hne, ha⟩ :=
          scanOuter_sound_enum m l 0 ps c hsc q hq
        rw [Nat.sub_zero] at he hf
        exact ⟨e, f, he, hf, hqq, hne, ha⟩
  · intro hc i j e f he hf hij hne ha
    cases hsc : scanOuter m (enumFrom 0 l) with
    | mk ps c =>
        have hfind : find_alpha_equiv_goals m l = (ps, c) := hsc
        rw [hfind] at hc ⊢
        have hc' : c = false := hc
        subst hc'
        exact scanOuter_complete_enum m l 0 ps hsc i j e f
          (by simpa using he) (by simpa using hf) (Nat.zero_le i) hij hne ha

/-- Witness for the amended Claim C9 on a completing two-candidate scan:
`(0, 1)` is emitted for two alpha-equivalent goals from distinct
theorems. -/
theorem clone_scan_characterization_witness :
    (0, 1) ∈ (find_alpha_equiv_goals m9 lW).1 :=
  (clone_scan_characterization m9 lW).2 (by simp [lW, find_alpha_equiv_goals,
      enumFrom, scanOuter, scanInner, m9, alphaEquivT, beqT])
    0 1 (GoalEntry.mk "G2" "C" "f.v" [] "g2") (GoalEntry.mk "G3" "D" "f.v" [] "g3")
    rfl rfl (by decide) (by decide) (by simp [m9, alphaEquivT, beqT])
